import Mathlib

/-!
Verification of the voik segmented commit log (crate `commit_log`).

The development is a shallow embedding of the Rust source:
`src/commit_log/src/lib.rs`, `src/commit_log/src/segment/mod.rs`,
`src/commit_log/src/segment/log.rs`, `src/commit_log/src/segment/index.rs`.

Bytes are modelled as `Nat` (no arithmetic is ever performed on payload
bytes, and index entries only store ASCII decimal digits 48..57, so the
8-bit bound plays no role).  Memory-mapped files are fixed-length
`List Nat` values; the mmap slice-write of the source is `writeBytes`.
Fallible operations return `Except`; operations that in Rust mutate
through `&mut self` after a partial failure return an explicit
(result, new state) pair so that failure states are observable.
-/

set_option maxHeartbeats 1000000
set_option maxRecDepth 10000

namespace Voik

/-- Overwrite `mmap` starting at position `pos` with the bytes `buf`.
This models `(&mut mmap[pos .. pos + buf.len()]).write(buf)` for an
in-bounds slice (every call site guards `pos + buf.length ≤ mmap.length`
via a `fit` check, mirroring the source). -/
def writeBytes (mmap : List Nat) (pos : Nat) (buf : List Nat) : List Nat :=
  mmap.take pos ++ buf ++ mmap.drop (pos + buf.length)

/-- Fuel-driven decimal rendering (structural recursion on the fuel so
that the kernel can evaluate it). -/
def decDigitsF : Nat → Nat → List Nat
  | 0, _ => []
  | fuel + 1, n =>
    if n < 10 then [48 + n] else decDigitsF fuel (n / 10) ++ [48 + n % 10]

/-- Decimal digits of `n`, most significant first, as ASCII byte codes.
Models the decimal rendering done by Rust `format!`. -/
def decDigits (n : Nat) : List Nat :=
  decDigitsF (n + 1) n

/-- A decidable-equality instance for `Except`, used only to let concrete
results be checked by `decide`. -/
instance {ε α : Type} [DecidableEq ε] [DecidableEq α] : DecidableEq (Except ε α) :=
  fun a b =>
    match a, b with
    | .ok x, .ok y =>
      if h : x = y then isTrue (by rw [h])
      else isFalse (fun hc => by cases hc; exact h rfl)
    | .error x, .error y =>
      if h : x = y then isTrue (by rw [h])
      else isFalse (fun hc => by cases hc; exact h rfl)
    | .ok _, .error _ => isFalse (fun hc => by cases hc)
    | .error _, .ok _ => isFalse (fun hc => by cases hc)

/-- `format!("{:010}", n)`: left-pad the decimal rendering of `n` with
ASCII zeros to a width of at least ten. -/
def pad10 (n : Nat) : List Nat :=
  List.replicate (10 - (decDigits n).length) 48 ++ decDigits n

/-- Is the byte an ASCII decimal digit? -/
def isDigitB (b : Nat) : Bool :=
  decide (48 ≤ b) && decide (b ≤ 57)

/-- `str::parse::<usize>` on a short run of bytes: succeeds exactly on a
nonempty all-digit string, yielding its decimal value.  (The source
parses at most ten digits at a time, so 64-bit overflow cannot occur; a
leading sign never occurs in an index file, whose bytes are only digits
or NUL padding.) -/
def parse10 (bs : List Nat) : Option Nat :=
  if bs.isEmpty then none
  else if bs.all isDigitB then
    some (bs.foldl (fun a b => a * 10 + (b - 48)) 0)
  else none

/-- Total payload size of a list of records. -/
def sumLen (recs : List (List Nat)) : Nat :=
  (recs.map List.length).sum

/-! ## Error taxonomy, mirroring the Rust enums -/

/-- `segment::log::Error`. -/
inductive LogError where
  | io
  | noSpaceLeft
  | invalidIndex
deriving DecidableEq, Repr

/-- `segment::index::Error` (`num` is the `ParseIntError` variant). -/
inductive IndexError where
  | io
  | num
  | noSpaceLeft
  | invalidIndex
deriving DecidableEq, Repr

/-- `segment::Error`. -/
inductive SegmentError where
  | io
  | index (e : IndexError)
  | log (e : LogError)
deriving DecidableEq, Repr

/-- `commit_log::Error`. -/
inductive CommitLogError where
  | io
  | segment (e : SegmentError)
  | bufferSizeExceeded
  | segmentUnavailable
deriving DecidableEq, Repr

/-! ## Log (`segment/log.rs`) -/

/-- The `Log` struct: a fixed-size memory-mapped file plus a process-local
write cursor (`offset` in the source). The `file` handle and the path are
not modelled; `base_offset` is kept since it is a struct field. -/
structure Log where
  base_offset : Nat
  offset : Nat
  max_size : Nat
  mmap : List Nat
deriving DecidableEq, Repr

/-- `Log::new`: the file is truncated to exactly `max_size` bytes (fresh
files are zero-filled) and the cursor is reset to 0. -/
def Log.new (base_offset max_size : Nat) : Log :=
  { base_offset, offset := 0, max_size, mmap := List.replicate max_size 0 }

/-- `Log::fit`: `(self.max_size - self.offset) >= buffer_size`.  The
`usize` subtraction never underflows in a reachable state (the cursor
never passes `max_size`), where it agrees with `Nat` subtraction. -/
def Log.fit (l : Log) (buffer_size : Nat) : Bool :=
  decide (buffer_size ≤ l.max_size - l.offset)

/-- `Log::write`. -/
def Log.write (l : Log) (buffer : List Nat) : Except LogError (Nat × Log) :=
  if l.fit buffer.length then
    .ok (buffer.length,
      { l with offset := l.offset + buffer.length,
               mmap := writeBytes l.mmap l.offset buffer })
  else .error .noSpaceLeft

/-- `Log::read_at`. -/
def Log.read_at (l : Log) (offset size : Nat) : Except LogError (List Nat) :=
  if offset + size > l.mmap.length then .error .invalidIndex
  else .ok ((l.mmap.drop offset).take size)

/-! ## Index (`segment/index.rs`) -/

/-- An index `Entry`: the `(offset, size)` pair. -/
structure Entry where
  offset : Nat
  size : Nat
deriving DecidableEq, Repr

/-- `impl fmt::Display for Entry`: `format!("{:010}{:010}", offset, size)`
as ASCII bytes. -/
def Entry.render (e : Entry) : List Nat :=
  pad10 e.offset ++ pad10 e.size

/-- The `Index` struct (file handle and path not modelled). -/
structure Index where
  base_offset : Nat
  offset : Nat
  max_size : Nat
  mmap : List Nat
deriving DecidableEq, Repr

/-- `Index::new`: truncate to `max_size` bytes, cursor reset to 0. -/
def Index.new (base_offset max_size : Nat) : Index :=
  { base_offset, offset := 0, max_size, mmap := List.replicate max_size 0 }

/-- `Index::fit`: `self.max_size >= self.offset + entry * ENTRY_SIZE`. -/
def Index.fit (idx : Index) (entry : Nat) : Bool :=
  decide (idx.offset + entry * 20 ≤ idx.max_size)

/-- `Index::write`: advance the cursor by `ENTRY_SIZE` and copy the
rendered entry into the 20-byte slot; the slice `Write` copies
`min (rendered length) 20` bytes and reports that count. -/
def Index.write (idx : Index) (e : Entry) : Except IndexError (Nat × Index) :=
  if idx.fit 1 then
    .ok (min (Entry.render e).length 20,
      { idx with offset := idx.offset + 20,
                 mmap := writeBytes idx.mmap idx.offset ((Entry.render e).take 20) })
  else .error .noSpaceLeft

/-- The 20 bytes of slot `k` of the mapping. -/
def Index.slotBytes (idx : Index) (k : Nat) : List Nat :=
  (idx.mmap.drop (k * 20)).take 20

/-- Parse one 20-byte slot into an `Entry`: two ten-digit fields
(`Index::read_at`'s two `parse()` calls). -/
def parseEntry (bs : List Nat) : Except IndexError Entry :=
  match parse10 (bs.take 10), parse10 ((bs.drop 10).take 10) with
  | some o, some s => .ok ⟨o, s⟩
  | _, _ => .error .num

/-- `Index::read_at`: `if real_offset + ENTRY_SIZE >= mmap.len()` fail
with `InvalidIndex`, otherwise parse the slot. -/
def Index.read_at (idx : Index) (k : Nat) : Except IndexError Entry :=
  if idx.mmap.length ≤ k * 20 + 20 then .error .invalidIndex
  else parseEntry (idx.slotBytes k)

/-! ## Segment (`segment/mod.rs`) -/

/-- The `Segment` struct: one `Log` plus one `Index` sharing a base
offset (the base offset is only used for file naming in the source). -/
structure Segment where
  log : Log
  index : Index
  offset : Nat
deriving DecidableEq, Repr

/-- `Segment::new`. -/
def Segment.new (offset max_log_size max_index_size : Nat) : Segment :=
  { log := Log.new offset max_log_size,
    index := Index.new offset max_index_size,
    offset }

/-- `Segment::fit`: `log.fit(buffer_size) && index.fit(1)`. -/
def Segment.fit (s : Segment) (buffer_size : Nat) : Bool :=
  s.log.fit buffer_size && s.index.fit 1

/-- `Segment::write`: write the index entry `(log.offset(), len)` first,
then the log.  The pair result records the state that the `&mut self`
mutations leave behind on either failure path: an index failure leaves
the segment untouched; a log failure leaves the already-mutated index
(the dangling-entry state). -/
def Segment.write (s : Segment) (buffer : List Nat) :
    Except SegmentError Nat × Segment :=
  match s.index.write ⟨s.log.offset, buffer.length⟩ with
  | .error e => (.error (.index e), s)
  | .ok (_, idx') =>
    match s.log.write buffer with
    | .error e => (.error (.log e), { s with index := idx' })
    | .ok (n, log') => (.ok n, { s with index := idx', log := log' })

/-- `Segment::read_at`: look the entry up in the index, then read the
log at `(entry.offset, entry.size)`. -/
def Segment.read_at (s : Segment) (k : Nat) : Except SegmentError (List Nat) :=
  match s.index.read_at k with
  | .error e => .error (.index e)
  | .ok entry =>
    match s.log.read_at entry.offset entry.size with
    | .error e => .error (.log e)
    | .ok buf => .ok buf

/-- `Segment::flush` performs `flush_async` on both mappings; it changes
no modelled state and never fails in the model (its only failure mode is
an OS-level Io error). -/
def Segment.flush (s : Segment) : Except SegmentError Unit × Segment :=
  (.ok (), s)

/-- Run a list of writes, failing (`none`) as soon as one write returns
an error.  Used to describe segments reachable by successful writes. -/
def Segment.writeAllE (s : Segment) : List (List Nat) → Option Segment
  | [] => some s
  | p :: ps =>
    match s.write p with
    | (.ok _, s') => s'.writeAllE ps
    | (.error _, _) => none

/-! ## CommitLog (`lib.rs`) -/

/-- `Position` for the reader-facing helpers. -/
inductive Position where
  | horizon
  | offset (n : Nat)

/-- `Record`: an address handed to sequential readers. -/
structure Record where
  current_offset : Nat
  segment_index : Nat
deriving DecidableEq, Repr

/-- The `CommitLog` struct (`path` not modelled). -/
structure CommitLog where
  segment_size : Nat
  index_size : Nat
  segments : List Segment
  current_segment : Nat
deriving DecidableEq, Repr

/-- `CommitLog::new`: create segment 0 eagerly, `current_segment = 0`. -/
def CommitLog.new (segment_size index_size : Nat) : CommitLog :=
  { segment_size, index_size,
    segments := [Segment.new 0 segment_size index_size],
    current_segment := 0 }

/-- `CommitLog::active_segment`: the last segment of the list (the list
is never empty; the default is unreachable). -/
def CommitLog.activeSegment (c : CommitLog) : Segment :=
  c.segments.getD (c.segments.length - 1) (Segment.new 0 0 0)

/-- Replace the active (last) segment, modelling mutation through the
`&mut Segment` returned by `active_segment`. -/
def CommitLog.setActive (c : CommitLog) (s : Segment) : CommitLog :=
  { c with segments := c.segments.set (c.segments.length - 1) s }

/-- `CommitLog::rotate_segment`: flush the active segment (a no-op on
modelled state) and push a fresh segment with `base_offset =
segments.len()`. -/
def CommitLog.rotateSegment (c : CommitLog) : CommitLog :=
  { c with segments :=
      c.segments ++ [Segment.new c.segments.length c.segment_size c.index_size] }

/-- `CommitLog::write`. -/
def CommitLog.write (c : CommitLog) (buffer : List Nat) :
    Except CommitLogError Nat × CommitLog :=
  if buffer.length > c.segment_size then (.error .bufferSizeExceeded, c)
  else
    let c1 := if c.activeSegment.fit buffer.length then c else c.rotateSegment
    match c1.activeSegment.write buffer with
    | (.ok n, s') => (.ok n, c1.setActive s')
    | (.error e, s') => (.error (.segment e), c1.setActive s')

/-- `CommitLog::read_at`. -/
def CommitLog.read_at (c : CommitLog) (segment_index offset : Nat) :
    Except CommitLogError (List Nat) :=
  if segment_index ≥ c.segments.length then .error .segmentUnavailable
  else
    match (c.segments.getD segment_index (Segment.new 0 0 0)).read_at offset with
    | .error e => .error (.segment e)
    | .ok buf => .ok buf

/-- `CommitLog::read_after`. -/
def CommitLog.read_after (c : CommitLog) (position : Position) (offset : Nat) :
    Except CommitLogError Record :=
  .ok { segment_index := c.current_segment,
        current_offset := offset + (match position with
          | .horizon => 1
          | .offset o => o) }

/-- `CommitLog::read`. -/
def CommitLog.read (c : CommitLog) (position : Position) :
    Except CommitLogError Record :=
  c.read_after position 0

/-- Thread a list of payloads through `CommitLog::write`, keeping only
the final state. -/
def CommitLog.writeAll (c : CommitLog) : List (List Nat) → CommitLog
  | [] => c
  | p :: ps => CommitLog.writeAll (c.write p).2 ps

/-- Thread a list of payloads through `CommitLog::write`, recording for
each payload the address it resolved to: the active segment's position
and the record slot just filled (the index cursor divided by the entry
width, minus one). -/
def CommitLog.writeAllWithAddrs (c : CommitLog) :
    List (List Nat) → CommitLog × List (Nat × Nat)
  | [] => (c, [])
  | p :: ps =>
    let c' := (c.write p).2
    let a := (c'.segments.length - 1, c'.activeSegment.index.offset / 20 - 1)
    let (cf, rest) := c'.writeAllWithAddrs ps
    (cf, a :: rest)

/-! ## Derived state descriptions

The following definitions do not embed further source code; they are the
vocabulary in which reachable states are characterized: the exact segment
and commit log states produced by a successful write sequence, and the
grouping of payloads into segments that `CommitLog::write`'s fit/rotate
branching induces. -/

/-- The index entries that describe the records `recs` laid out starting
at log offset `o`: entry `k` is `(o + Σ_{j<k} |recs_j|, |recs_k|)`. -/
def entriesFrom (o : Nat) : List (List Nat) → List Entry
  | [] => []
  | p :: ps => ⟨o, p.length⟩ :: entriesFrom (o + p.length) ps

/-- The 20-byte blocks that the index mapping holds for `recs` (oversize
entries are truncated to their first 20 bytes by the slot write). -/
def idxBlocks (recs : List (List Nat)) : List (List Nat) :=
  (entriesFrom 0 recs).map (fun e => (Entry.render e).take 20)

/-- The segment state reached from `Segment.new base sS iS` by
successfully writing the records `recs` in order. -/
def modelSegment (base sS iS : Nat) (recs : List (List Nat)) : Segment :=
  { log := { base_offset := base, offset := sumLen recs, max_size := sS,
             mmap := recs.flatten ++ List.replicate (sS - sumLen recs) 0 },
    index := { base_offset := base, offset := 20 * recs.length, max_size := iS,
               mmap := (idxBlocks recs).flatten ++
                 List.replicate (iS - 20 * recs.length) 0 },
    offset := base }

/-- The segments a commit log holds when its payloads were partitioned
into the groups `gs`: segment `i + g` holds group `g`. -/
def buildSegs (sS iS : Nat) : Nat → List (List (List Nat)) → List Segment
  | _, [] => []
  | i, g :: gs => modelSegment i sS iS g :: buildSegs sS iS (i + 1) gs

/-- The commit log state whose records form the groups `gs` (the last
group is held by the active segment). -/
def mkCL (sS iS : Nat) (gs : List (List (List Nat))) : CommitLog :=
  { segment_size := sS, index_size := iS,
    segments := buildSegs sS iS 0 gs, current_segment := 0 }

/-- Whether a payload `p` fits the active segment whose records are
`cur` (the `Segment::fit` test, written out on the model state). -/
def fitsB (sS iS : Nat) (cur : List (List Nat)) (p : List Nat) : Bool :=
  decide (p.length ≤ sS - sumLen cur) && decide (20 * cur.length + 1 * 20 ≤ iS)

/-- The routing of payloads into segment groups performed by
`CommitLog::write`: append to the current group if it fits, otherwise
close it and start a new group.  Returns (closed groups, final group). -/
def routeAcc (sS iS : Nat) (cur : List (List Nat)) :
    List (List Nat) → List (List (List Nat)) × List (List Nat)
  | [] => ([], cur)
  | p :: ps =>
    if fitsB sS iS cur p then routeAcc sS iS (cur ++ [p]) ps
    else
      ((routeAcc sS iS [p] ps).1.cons cur, (routeAcc sS iS [p] ps).2)

/-- The addresses the successive payloads resolve to, when the active
segment currently holds group number `g` with records `cur`. -/
def addrAcc (sS iS : Nat) (g : Nat) (cur : List (List Nat)) :
    List (List Nat) → List (Nat × Nat)
  | [] => []
  | p :: ps =>
    if fitsB sS iS cur p then (g, cur.length) :: addrAcc sS iS g (cur ++ [p]) ps
    else (g + 1, 0) :: addrAcc sS iS (g + 1) [p] ps

/-! ## Decimal rendering and parsing lemmas -/

theorem decDigitsF_irrel (n : Nat) :
    ∀ f1 f2, n < f1 → n < f2 → decDigitsF f1 n = decDigitsF f2 n := by
  induction n using Nat.strong_induction_on with
  | _ n ih =>
    intro f1 f2 h1 h2
    cases f1 with
    | zero => omega
    | succ g1 =>
      cases f2 with
      | zero => omega
      | succ g2 =>
        by_cases h10 : n < 10
        · simp [decDigitsF, h10]
        · have hlt : n / 10 < n := Nat.div_lt_self (by omega) (by omega)
          simp only [decDigitsF, if_neg h10]
          rw [ih (n / 10) hlt g1 g2 (by omega) (by omega)]

theorem decDigits_step (n : Nat) :
    decDigits n =
      if n < 10 then [48 + n] else decDigits (n / 10) ++ [48 + n % 10] := by
  by_cases h10 : n < 10
  · simp [decDigits, decDigitsF, h10]
  · have hlt : n / 10 < n := Nat.div_lt_self (by omega) (by omega)
    rw [if_neg h10]
    simp only [decDigits]
    conv_lhs => rw [show decDigitsF (n + 1) n =
      if n < 10 then [48 + n] else decDigitsF n (n / 10) ++ [48 + n % 10] from rfl]
    rw [if_neg h10, decDigitsF_irrel (n / 10) n (n / 10 + 1) hlt (by omega)]

theorem decDigits_length_pos (n : Nat) : 1 ≤ (decDigits n).length := by
  rw [decDigits_step]
  by_cases h10 : n < 10 <;> simp [h10]

theorem decDigits_len_le (n : Nat) :
    ∀ k, n < 10 ^ (k + 1) → (decDigits n).length ≤ k + 1 := by
  induction n using Nat.strong_induction_on with
  | _ n ih =>
    intro k h
    rw [decDigits_step]
    by_cases h10 : n < 10
    · simp [h10]
    · have hlt : n / 10 < n := Nat.div_lt_self (by omega) (by omega)
      have hk : 1 ≤ k := by
        by_contra hc
        have : k = 0 := by omega
        subst this
        simp [pow_one] at h
        omega
      obtain ⟨k', rfl⟩ : ∃ k', k = k' + 1 := ⟨k - 1, by omega⟩
      have hdiv : n / 10 < 10 ^ (k' + 1) := by
        rw [Nat.div_lt_iff_lt_mul (by omega)]
        calc n < 10 ^ (k' + 1 + 1) := h
        _ = 10 ^ (k' + 1) * 10 := by rw [pow_succ]
      have := ih (n / 10) hlt k' hdiv
      simp [h10, List.length_append]
      omega

theorem decDigits_len_lb (n : Nat) :
    ∀ k, 10 ^ k ≤ n → k + 1 ≤ (decDigits n).length := by
  induction n using Nat.strong_induction_on with
  | _ n ih =>
    intro k h
    cases k with
    | zero => exact decDigits_length_pos n
    | succ k' =>
      have h10 : ¬ n < 10 := by
        have : (10:Nat) ≤ 10 ^ (k' + 1) := by
          calc (10:Nat) = 10 ^ 1 := (pow_one 10).symm
          _ ≤ 10 ^ (k' + 1) := Nat.pow_le_pow_right (by omega) (by omega)
        omega
      have hlt : n / 10 < n := Nat.div_lt_self (by omega) (by omega)
      have hdiv : 10 ^ k' ≤ n / 10 := by
        rw [Nat.le_div_iff_mul_le (by omega)]
        calc 10 ^ k' * 10 = 10 ^ (k' + 1) := (pow_succ 10 k').symm
        _ ≤ n := h
      have := ih (n / 10) hlt k' hdiv
      rw [decDigits_step, if_neg h10]
      simp only [List.length_append, List.length_cons, List.length_nil]
      omega

theorem decDigits_all_digits (n : Nat) :
    ∀ b ∈ decDigits n, isDigitB b = true := by
  induction n using Nat.strong_induction_on with
  | _ n ih =>
    intro b hb
    rw [decDigits_step] at hb
    by_cases h10 : n < 10
    · simp [h10] at hb
      subst hb
      simp [isDigitB]
      omega
    · have hlt : n / 10 < n := Nat.div_lt_self (by omega) (by omega)
      simp [h10] at hb
      rcases hb with hb | hb
      · exact ih (n / 10) hlt b hb
      · subst hb
        have : n % 10 < 10 := Nat.mod_lt _ (by omega)
        simp [isDigitB]
        omega

theorem foldl_decDigits (n : Nat) :
    ∀ a, (decDigits n).foldl (fun a b => a * 10 + (b - 48)) a =
      a * 10 ^ (decDigits n).length + n := by
  induction n using Nat.strong_induction_on with
  | _ n ih =>
    intro a
    rw [decDigits_step]
    by_cases h10 : n < 10
    · simp only [if_pos h10, List.foldl, List.length_cons, List.length_nil, pow_one]
      omega
    · have hlt : n / 10 < n := Nat.div_lt_self (by omega) (by omega)
      simp only [if_neg h10, List.foldl_append, List.foldl, List.length_append,
        List.length_cons, List.length_nil]
      rw [ih (n / 10) hlt a]
      have hmod : 48 + n % 10 - 48 = n % 10 := by omega
      rw [hmod]
      have hdm : 10 * (n / 10) + n % 10 = n := Nat.div_add_mod n 10
      have : (a * 10 ^ (decDigits (n / 10)).length + n / 10) * 10 + n % 10 =
          a * (10 ^ (decDigits (n / 10)).length * 10) +
            (10 * (n / 10) + n % 10) := by ring
      rw [this, hdm, ← pow_succ]

theorem pad10_length_ge (n : Nat) : 10 ≤ (pad10 n).length := by
  simp [pad10, List.length_append, List.length_replicate]
  omega

theorem pad10_length_eq (n : Nat) (h : n < 10 ^ 10) : (pad10 n).length = 10 := by
  have hle : (decDigits n).length ≤ 10 := decDigits_len_le n 9 h
  simp [pad10, List.length_append, List.length_replicate]
  omega

theorem pad10_all_digits (n : Nat) : ∀ b ∈ pad10 n, isDigitB b = true := by
  intro b hb
  simp only [pad10, List.mem_append, List.mem_replicate] at hb
  rcases hb with ⟨_, rfl⟩ | hb
  · simp [isDigitB]
  · exact decDigits_all_digits n b hb

theorem parse10_pad10 (n : Nat) : parse10 (pad10 n) = some n := by
  have hne : (pad10 n).isEmpty = false := by
    have := pad10_length_ge n
    cases hp : pad10 n with
    | nil => simp [hp] at this
    | cons a l => simp
  have hall : (pad10 n).all isDigitB = true := by
    rw [List.all_eq_true]
    exact pad10_all_digits n
  have hrep : ∀ m, (List.replicate m 48).foldl (fun a b => a * 10 + (b - 48)) 0 = 0 := by
    intro m
    induction m with
    | zero => simp
    | succ m ihm => simpa [List.replicate_succ] using ihm
  simp only [parse10, hne, hall, if_true, Bool.false_eq_true, if_false]
  rw [pad10, List.foldl_append, hrep, foldl_decDigits n 0]
  simp

theorem render_length_ge (e : Entry) : 20 ≤ (Entry.render e).length := by
  have h1 := pad10_length_ge e.offset
  have h2 := pad10_length_ge e.size
  simp [Entry.render, List.length_append]
  omega

theorem render_length_eq (e : Entry)
    (ho : e.offset < 10 ^ 10) (hs : e.size < 10 ^ 10) :
    (Entry.render e).length = 20 := by
  simp [Entry.render, List.length_append, pad10_length_eq _ ho, pad10_length_eq _ hs]

theorem render_length_iff (e : Entry) :
    (Entry.render e).length = 20 ↔ e.offset < 10 ^ 10 ∧ e.size < 10 ^ 10 := by
  constructor
  · intro h
    by_contra hc
    push_neg at hc
    rcases Nat.lt_or_ge e.offset (10 ^ 10) with ho | ho
    · have hs := hc ho
      have h11 : 11 ≤ (decDigits e.size).length := decDigits_len_lb e.size 10 hs
      have hp : 11 ≤ (pad10 e.size).length := by
        simp [pad10, List.length_append, List.length_replicate]
        omega
      have := pad10_length_ge e.offset
      simp [Entry.render, List.length_append] at h
      omega
    · have h11 : 11 ≤ (decDigits e.offset).length := decDigits_len_lb e.offset 10 ho
      have hp : 11 ≤ (pad10 e.offset).length := by
        simp [pad10, List.length_append, List.length_replicate]
        omega
      have := pad10_length_ge e.size
      simp [Entry.render, List.length_append] at h
      omega
  · intro ⟨ho, hs⟩
    exact render_length_eq e ho hs

/-! ## List bookkeeping lemmas -/

theorem writeBytes_at_append (A buf Z : List Nat) :
    writeBytes (A ++ Z) A.length buf = A ++ buf ++ Z.drop buf.length := by
  simp [writeBytes, List.take_left, List.drop_append, List.append_assoc]

theorem getD_append_length (a b : List α) (d : α) :
    (a ++ b).getD a.length d = b.getD 0 d := by
  induction a with
  | nil => simp
  | cons x xs ih => simpa using ih

theorem getD_append_lt (a b : List α) (i : Nat) (h : i < a.length) (d : α) :
    (a ++ b).getD i d = a.getD i d := by
  induction a generalizing i with
  | nil => simp at h
  | cons x xs ih =>
    cases i with
    | zero => simp
    | succ j =>
      simp only [List.cons_append, List.getD_cons_succ]
      exact ih j (by simpa using h)

theorem getD_mem (l : List α) (n : Nat) (d : α) (h : n < l.length) :
    l.getD n d ∈ l := by
  induction l generalizing n with
  | nil => simp at h
  | cons x xs ih =>
    cases n with
    | zero => simp
    | succ m =>
      simp only [List.getD_cons_succ]
      exact List.mem_cons_of_mem x (ih m (by simpa using h))

theorem getD_map (f : α → β) (l : List α) (n : Nat) (h : n < l.length)
    (d : β) (d0 : α) : (l.map f).getD n d = f (l.getD n d0) := by
  induction l generalizing n with
  | nil => simp at h
  | cons x xs ih =>
    cases n with
    | zero => simp
    | succ m =>
      simp only [List.map_cons, List.getD_cons_succ]
      exact ih m (by simpa using h)

theorem set_append_last (a : List α) (x y : α) :
    (a ++ [x]).set a.length y = a ++ [y] := by
  induction a with
  | nil => simp
  | cons z zs ih => simp [ih]

theorem drop_replicate (n m : Nat) (x : α) :
    (List.replicate n x).drop m = List.replicate (n - m) x := by
  induction n generalizing m with
  | zero => simp
  | succ k ih =>
    cases m with
    | zero => simp
    | succ j => simp [List.replicate_succ, ih j]

@[simp] theorem sumLen_nil : sumLen [] = 0 := rfl

@[simp] theorem sumLen_cons (p : List Nat) (ps : List (List Nat)) :
    sumLen (p :: ps) = p.length + sumLen ps := by
  simp [sumLen]

theorem sumLen_append (a b : List (List Nat)) :
    sumLen (a ++ b) = sumLen a + sumLen b := by
  simp [sumLen]

theorem sumLen_take_le (recs : List (List Nat)) (k : Nat) :
    sumLen (recs.take k) ≤ sumLen recs := by
  conv_rhs => rw [← List.take_append_drop k recs]
  rw [sumLen_append]
  omega

theorem sumLen_take_succ (recs : List (List Nat)) (k : Nat)
    (h : k < recs.length) :
    sumLen (recs.take (k + 1)) = sumLen (recs.take k) + (recs.getD k []).length := by
  induction recs generalizing k with
  | nil => simp at h
  | cons r rs ih =>
    cases k with
    | zero => simp
    | succ j =>
      simp only [List.take_succ_cons, sumLen_cons, List.getD_cons_succ]
      rw [ih j (by simpa using h)]
      omega

theorem flatten_length (L : List (List Nat)) : L.flatten.length = sumLen L := by
  rw [List.length_flatten]
  rfl

theorem slice_flatten (recs : List (List Nat)) (Z : List Nat) :
    ∀ k, k < recs.length →
      ((recs.flatten ++ Z).drop (sumLen (recs.take k))).take (recs.getD k []).length
        = recs.getD k [] := by
  induction recs generalizing Z with
  | nil => intro k h; simp at h
  | cons r rs ih =>
    intro k h
    cases k with
    | zero =>
      simp only [List.take_zero, sumLen_nil, List.drop_zero, List.getD_cons_zero,
        List.flatten_cons, List.append_assoc]
      exact List.take_left r (rs.flatten ++ Z)
    | succ j =>
      simp only [List.take_succ_cons, sumLen_cons, List.getD_cons_succ,
        List.flatten_cons, List.append_assoc, List.drop_append]
      exact ih Z j (by simpa using h)

/-! ## Entry positions of a record sequence -/

theorem entriesFrom_length (o : Nat) (xs : List (List Nat)) :
    (entriesFrom o xs).length = xs.length := by
  induction xs generalizing o with
  | nil => rfl
  | cons p ps ih => simp [entriesFrom, ih]

theorem entriesFrom_append_single (o : Nat) (xs : List (List Nat)) (p : List Nat) :
    entriesFrom o (xs ++ [p]) =
      entriesFrom o xs ++ [⟨o + sumLen xs, p.length⟩] := by
  induction xs generalizing o with
  | nil => simp [entriesFrom]
  | cons q qs ih =>
    simp only [List.cons_append, entriesFrom, sumLen_cons, List.append_eq]
    rw [ih (o + q.length), Nat.add_assoc]

theorem entriesFrom_getD (o : Nat) (xs : List (List Nat)) :
    ∀ k, k < xs.length →
      (entriesFrom o xs).getD k ⟨0, 0⟩ =
        ⟨o + sumLen (xs.take k), (xs.getD k []).length⟩ := by
  induction xs generalizing o with
  | nil => intro k h; simp at h
  | cons p ps ih =>
    intro k h
    cases k with
    | zero => simp [entriesFrom]
    | succ j =>
      simp only [entriesFrom, List.getD_cons_succ, List.take_succ_cons, sumLen_cons]
      rw [ih (o + p.length) j (by simpa using h)]
      have : o + p.length + sumLen (ps.take j) = o + (p.length + sumLen (ps.take j)) := by
        omega
      rw [this]

theorem idxBlocks_length (recs : List (List Nat)) :
    (idxBlocks recs).length = recs.length := by
  simp [idxBlocks, entriesFrom_length]

theorem idxBlocks_block_len (recs : List (List Nat)) :
    ∀ b ∈ idxBlocks recs, b.length = 20 := by
  intro b hb
  simp only [idxBlocks, List.mem_map] at hb
  obtain ⟨e, _, rfl⟩ := hb
  have := render_length_ge e
  simp [List.length_take]
  omega

theorem sumLen_all20 (B : List (List Nat)) (h : ∀ b ∈ B, b.length = 20) :
    sumLen B = 20 * B.length := by
  induction B with
  | nil => simp
  | cons b bs ih =>
    simp only [sumLen_cons, List.length_cons]
    rw [h b (by simp), ih (fun x hx => h x (List.mem_cons_of_mem b hx))]
    ring

theorem sumLen_take_all20 (B : List (List Nat)) (h : ∀ b ∈ B, b.length = 20)
    (k : Nat) (hk : k ≤ B.length) : sumLen (B.take k) = 20 * k := by
  rw [sumLen_all20 (B.take k) (fun b hb => h b (List.mem_of_mem_take hb))]
  rw [List.length_take]
  omega

/-! ## Characterization of reachable segment states -/

theorem modelSegment_nil (base sS iS : Nat) :
    modelSegment base sS iS [] = Segment.new base sS iS := by
  simp [modelSegment, Segment.new, Log.new, Index.new, idxBlocks, entriesFrom]

theorem idxBlocks_flatten_length (recs : List (List Nat)) :
    (idxBlocks recs).flatten.length = 20 * recs.length := by
  rw [flatten_length, sumLen_all20 _ (idxBlocks_block_len recs), idxBlocks_length]

theorem model_log_mmap_length (base sS iS : Nat) (recs : List (List Nat))
    (h : sumLen recs ≤ sS) :
    (modelSegment base sS iS recs).log.mmap.length = sS := by
  show (recs.flatten ++ List.replicate (sS - sumLen recs) 0).length = sS
  rw [List.length_append, flatten_length, List.length_replicate]
  omega

theorem model_idx_mmap_length (base sS iS : Nat) (recs : List (List Nat))
    (h : 20 * recs.length ≤ iS) :
    (modelSegment base sS iS recs).index.mmap.length = iS := by
  show ((idxBlocks recs).flatten ++ List.replicate (iS - 20 * recs.length) 0).length
      = iS
  rw [List.length_append, idxBlocks_flatten_length, List.length_replicate]
  omega

theorem idxBlocks_append_single (recs : List (List Nat)) (p : List Nat) :
    idxBlocks (recs ++ [p]) =
      idxBlocks recs ++ [(Entry.render ⟨sumLen recs, p.length⟩).take 20] := by
  simp [idxBlocks, entriesFrom_append_single, List.map_append]

theorem segment_write_step (base sS iS : Nat) (recs : List (List Nat))
    (p : List Nat) (h1 : sumLen recs + p.length ≤ sS)
    (h2 : 20 * recs.length + 20 ≤ iS) :
    (modelSegment base sS iS recs).write p =
      (.ok p.length, modelSegment base sS iS (recs ++ [p])) := by
  have hsum : sumLen recs ≤ sS := by omega
  have hrender : 20 ≤ (Entry.render ⟨sumLen recs, p.length⟩).length :=
    render_length_ge _
  have hBlen : (idxBlocks recs).flatten.length = 20 * recs.length :=
    idxBlocks_flatten_length recs
  have hLlen : recs.flatten.length = sumLen recs := flatten_length recs
  have hidxfit : (modelSegment base sS iS recs).index.fit 1 = true := by
    simp only [modelSegment, Index.fit, decide_eq_true_eq]
    omega
  have hlogfit : (modelSegment base sS iS recs).log.fit p.length = true := by
    simp only [modelSegment, Log.fit, decide_eq_true_eq]
    omega
  have hmmI : writeBytes ((idxBlocks recs).flatten ++
      List.replicate (iS - 20 * recs.length) 0) (20 * recs.length)
      ((Entry.render ⟨sumLen recs, p.length⟩).take 20) =
      (idxBlocks (recs ++ [p])).flatten ++
        List.replicate (iS - 20 * (recs ++ [p]).length) 0 := by
    conv_lhs => rw [show 20 * recs.length = (idxBlocks recs).flatten.length
      from hBlen.symm]
    rw [writeBytes_at_append, drop_replicate, idxBlocks_append_single,
      List.flatten_append]
    have htl : ((Entry.render ⟨sumLen recs, p.length⟩).take 20).length = 20 := by
      simp only [List.length_take]
      omega
    rw [htl]
    simp only [List.flatten_cons, List.flatten_nil, List.append_nil,
      List.append_assoc, List.length_append, List.length_cons, List.length_nil]
    have heq : iS - (idxBlocks recs).flatten.length - 20 =
        iS - 20 * (recs.length + (0 + 1)) := by
      rw [hBlen]
      omega
    rw [heq]
  have hmmL : writeBytes (recs.flatten ++ List.replicate (sS - sumLen recs) 0)
      (sumLen recs) p =
      (recs ++ [p]).flatten ++ List.replicate (sS - sumLen (recs ++ [p])) 0 := by
    conv_lhs => rw [show sumLen recs = recs.flatten.length from hLlen.symm]
    rw [writeBytes_at_append, drop_replicate, List.flatten_append]
    simp only [List.flatten_cons, List.flatten_nil, List.append_nil,
      List.append_assoc, sumLen_append, sumLen_cons, sumLen_nil]
    have heq : sS - recs.flatten.length - p.length =
        sS - (sumLen recs + (p.length + 0)) := by
      rw [hLlen]
      omega
    rw [heq]
  have hoffI : 20 * recs.length + 20 = 20 * (recs ++ [p]).length := by
    simp only [List.length_append, List.length_cons, List.length_nil]
    ring
  have hoffL : sumLen recs + p.length = sumLen (recs ++ [p]) := by
    rw [sumLen_append, sumLen_cons, sumLen_nil]
    omega
  have hiw : (modelSegment base sS iS recs).index.write
      ⟨(modelSegment base sS iS recs).log.offset, p.length⟩ =
      .ok (min (Entry.render ⟨sumLen recs, p.length⟩).length 20,
        (modelSegment base sS iS (recs ++ [p])).index) := by
    rw [Index.write, if_pos hidxfit]
    simp only [modelSegment]
    rw [hmmI, hoffI]
  have hlw : (modelSegment base sS iS recs).log.write p =
      .ok (p.length, (modelSegment base sS iS (recs ++ [p])).log) := by
    rw [Log.write, if_pos hlogfit]
    simp only [modelSegment]
    rw [hmmL, hoffL]
  simp only [Segment.write, hiw, hlw]
  rfl

theorem segment_write_idxfull (base sS iS : Nat) (recs : List (List Nat))
    (p : List Nat) (h2 : ¬ 20 * recs.length + 20 ≤ iS) :
    (modelSegment base sS iS recs).write p =
      (.error (.index .noSpaceLeft), modelSegment base sS iS recs) := by
  have hidxfit : (modelSegment base sS iS recs).index.fit 1 = false := by
    simp [modelSegment, Index.fit]
    omega
  simp [Segment.write, Index.write, hidxfit]

theorem segment_write_logfull (base sS iS : Nat) (recs : List (List Nat))
    (p : List Nat) (h2 : 20 * recs.length + 20 ≤ iS)
    (h1 : ¬ p.length ≤ sS - sumLen recs) :
    ((modelSegment base sS iS recs).write p).1 = .error (.log .noSpaceLeft) := by
  have hidxfit : (modelSegment base sS iS recs).index.fit 1 = true := by
    simp [modelSegment, Index.fit]
    omega
  have hlogfit : (modelSegment base sS iS recs).log.fit p.length = false := by
    simp [modelSegment, Log.fit]
    omega
  simp [Segment.write, Index.write, hidxfit, Log.write, hlogfit]

theorem segment_write_ok_inv (base sS iS : Nat) (recs : List (List Nat))
    (p : List Nat) (n : Nat) (s' : Segment) (h0 : sumLen recs ≤ sS)
    (h : (modelSegment base sS iS recs).write p = (.ok n, s')) :
    sumLen recs + p.length ≤ sS ∧ 20 * recs.length + 20 ≤ iS ∧
      n = p.length ∧ s' = modelSegment base sS iS (recs ++ [p]) := by
  by_cases h2 : 20 * recs.length + 20 ≤ iS
  · by_cases h1 : p.length ≤ sS - sumLen recs
    · have h1' : sumLen recs + p.length ≤ sS := by omega
      rw [segment_write_step base sS iS recs p h1' h2] at h
      have hn := congrArg Prod.fst h
      have hs := congrArg Prod.snd h
      simp only at hn hs
      cases hn
      exact ⟨h1', h2, rfl, hs.symm⟩
    · have := segment_write_logfull base sS iS recs p h2 h1
      rw [h] at this
      simp at this
  · rw [segment_write_idxfull base sS iS recs p h2] at h
    have hn := congrArg Prod.fst h
    simp at hn

theorem writeAllE_model (base sS iS : Nat) :
    ∀ (recs xs : List (List Nat)) (s : Segment),
      sumLen xs ≤ sS → 20 * xs.length ≤ iS →
      Segment.writeAllE (modelSegment base sS iS xs) recs = some s →
      sumLen (xs ++ recs) ≤ sS ∧ 20 * (xs ++ recs).length ≤ iS ∧
        s = modelSegment base sS iS (xs ++ recs) := by
  intro recs
  induction recs with
  | nil =>
    intro xs s h1 h2 h
    simp only [Segment.writeAllE, Option.some.injEq] at h
    simp [← h, h1, h2]
  | cons r rs ih =>
    intro xs s h1 h2 h
    simp only [Segment.writeAllE] at h
    rcases hw : (modelSegment base sS iS xs).write r with ⟨res, s1⟩
    rw [hw] at h
    cases res with
    | error e => simp at h
    | ok n =>
      simp only at h
      obtain ⟨ha, hb, _, hs1⟩ := segment_write_ok_inv base sS iS xs r n s1 h1 hw
      subst hs1
      have := ih (xs ++ [r]) s (by rw [sumLen_append]; simpa using ha)
        (by simp; omega) h
      rwa [List.append_assoc, List.singleton_append] at this

theorem model_parse_slot (base sS iS : Nat) (recs : List (List Nat)) (k : Nat)
    (hk : k < recs.length) (hsum : sumLen recs ≤ sS) (hd : sS ≤ 9999999999) :
    parseEntry ((modelSegment base sS iS recs).index.slotBytes k) =
      .ok ⟨sumLen (recs.take k), (recs.getD k []).length⟩ := by
  have hkb : k < (idxBlocks recs).length := by rw [idxBlocks_length]; exact hk
  have hslice := slice_flatten (idxBlocks recs)
    (List.replicate (iS - 20 * recs.length) 0) k hkb
  have hsl : sumLen ((idxBlocks recs).take k) = 20 * k :=
    sumLen_take_all20 _ (idxBlocks_block_len recs) k (by omega)
  have hbl : ((idxBlocks recs).getD k []).length = 20 :=
    idxBlocks_block_len recs _ (getD_mem _ k [] hkb)
  rw [hsl, hbl] at hslice
  have hek : k < (entriesFrom 0 recs).length := by
    rw [entriesFrom_length]; exact hk
  have hgd : (idxBlocks recs).getD k [] =
      (Entry.render ((entriesFrom 0 recs).getD k ⟨0, 0⟩)).take 20 := by
    rw [idxBlocks]
    exact getD_map _ _ k hek [] ⟨0, 0⟩
  rw [entriesFrom_getD 0 recs k hk] at hgd
  have ho : sumLen (recs.take k) < 10 ^ 10 := by
    have := sumLen_take_le recs k
    have : sumLen (recs.take k) ≤ 9999999999 := by omega
    omega
  have hs : (recs.getD k []).length < 10 ^ 10 := by
    have hss := sumLen_take_succ recs k hk
    have := sumLen_take_le recs (k + 1)
    omega
  have hr20 : (Entry.render ⟨sumLen (recs.take k), (recs.getD k []).length⟩).length
      = 20 := render_length_eq _ ho hs
  have htake : (Entry.render ⟨sumLen (recs.take k), (recs.getD k []).length⟩).take 20
      = Entry.render ⟨sumLen (recs.take k), (recs.getD k []).length⟩ := by
    conv_lhs => rw [← hr20]
    exact List.take_length _
  simp only [Nat.zero_add] at hgd
  rw [htake] at hgd
  rw [hgd] at hslice
  show parseEntry (((modelSegment base sS iS recs).index.mmap.drop (k * 20)).take 20)
      = _
  have hmm : (modelSegment base sS iS recs).index.mmap =
      (idxBlocks recs).flatten ++ List.replicate (iS - 20 * recs.length) 0 := rfl
  rw [hmm, Nat.mul_comm k 20, hslice]
  have hpo : (pad10 (sumLen (recs.take k))).length = 10 := pad10_length_eq _ ho
  have hps : (pad10 (recs.getD k []).length).length = 10 := pad10_length_eq _ hs
  rw [parseEntry, Entry.render]
  have h10 : (10 : Nat) = (pad10 (sumLen (recs.take k))).length := hpo.symm
  rw [show (pad10 (sumLen (recs.take k)) ++ pad10 (recs.getD k []).length).take 10
      = pad10 (sumLen (recs.take k)) by rw [h10]; exact List.take_left _ _]
  rw [show (pad10 (sumLen (recs.take k)) ++ pad10 (recs.getD k []).length).drop 10
      = pad10 (recs.getD k []).length by rw [h10]; exact List.drop_left _ _]
  rw [show (pad10 (recs.getD k []).length).take 10
      = pad10 (recs.getD k []).length by
    conv_lhs => rw [← hps]
    exact List.take_length _]
  rw [parse10_pad10, parse10_pad10]

theorem model_read_at (base sS iS : Nat) (recs : List (List Nat)) (k : Nat)
    (hk : k < recs.length) (hb : (k + 1) * 20 < iS)
    (hsum : sumLen recs ≤ sS) (hiS : 20 * recs.length ≤ iS)
    (hd : sS ≤ 9999999999) :
    (modelSegment base sS iS recs).read_at k = .ok (recs.getD k []) := by
  have hidxlen := model_idx_mmap_length base sS iS recs hiS
  have hloglen := model_log_mmap_length base sS iS recs hsum
  have hread : (modelSegment base sS iS recs).index.read_at k =
      .ok ⟨sumLen (recs.take k), (recs.getD k []).length⟩ := by
    rw [Index.read_at, hidxlen, if_neg (by omega)]
    exact model_parse_slot base sS iS recs k hk hsum hd
  have hoplus : sumLen (recs.take k) + (recs.getD k []).length ≤ sS := by
    have := sumLen_take_succ recs k hk
    have := sumLen_take_le recs (k + 1)
    omega
  have hlr : (modelSegment base sS iS recs).log.read_at (sumLen (recs.take k))
      (recs.getD k []).length = .ok (recs.getD k []) := by
    rw [Log.read_at, hloglen, if_neg (by omega)]
    have hsl := slice_flatten recs (List.replicate (sS - sumLen recs) 0) k hk
    have hmm : (modelSegment base sS iS recs).log.mmap =
        recs.flatten ++ List.replicate (sS - sumLen recs) 0 := rfl
    rw [hmm, hsl]
  simp only [Segment.read_at, hread, hlr]

/-! ## Characterization of reachable commit log states -/

theorem buildSegs_length (sS iS : Nat) :
    ∀ (gs : List (List (List Nat))) (i : Nat), (buildSegs sS iS i gs).length = gs.length := by
  intro gs
  induction gs with
  | nil => intro i; rfl
  | cons g gs ih => intro i; simp [buildSegs, ih]

theorem buildSegs_append (sS iS : Nat) (a b : List (List (List Nat))) :
    ∀ i, buildSegs sS iS i (a ++ b) =
      buildSegs sS iS i a ++ buildSegs sS iS (i + a.length) b := by
  induction a with
  | nil => intro i; simp [buildSegs]
  | cons g gs ih =>
    intro i
    simp only [List.cons_append, List.append_eq, buildSegs, List.length_cons]
    rw [ih (i + 1)]
    have : i + 1 + gs.length = i + (gs.length + 1) := by omega
    rw [this]

theorem buildSegs_getD (sS iS : Nat) :
    ∀ (gs : List (List (List Nat))) (i g : Nat), g < gs.length →
      (buildSegs sS iS i gs).getD g (Segment.new 0 0 0) =
        modelSegment (i + g) sS iS (gs.getD g []) := by
  intro gs
  induction gs with
  | nil => intro i g h; simp at h
  | cons x xs ih =>
    intro i g h
    cases g with
    | zero => simp [buildSegs]
    | succ j =>
      simp only [buildSegs, List.getD_cons_succ]
      rw [ih (i + 1) j (by simpa using h)]
      have : i + 1 + j = i + (j + 1) := by omega
      rw [this]

theorem mkCL_new (sS iS : Nat) : CommitLog.new sS iS = mkCL sS iS [[]] := by
  simp [CommitLog.new, mkCL, buildSegs, modelSegment_nil]

theorem mkCL_active (sS iS : Nat) (done : List (List (List Nat)))
    (cur : List (List Nat)) :
    (mkCL sS iS (done ++ [cur])).activeSegment =
      modelSegment done.length sS iS cur := by
  show (buildSegs sS iS 0 (done ++ [cur])).getD
      ((buildSegs sS iS 0 (done ++ [cur])).length - 1) (Segment.new 0 0 0) = _
  rw [buildSegs_length]
  have hlen : (done ++ [cur]).length - 1 = done.length := by simp
  rw [hlen, buildSegs_getD sS iS (done ++ [cur]) 0 done.length (by simp)]
  rw [getD_append_length]
  simp

theorem set_append_last_of_eq (a : List α) (x y : α) (n : Nat)
    (h : n = a.length) : (a ++ [x]).set n y = a ++ [y] := by
  subst h
  exact set_append_last a x y

theorem mkCL_setActive (sS iS : Nat) (done : List (List (List Nat)))
    (cur cur' : List (List Nat)) :
    (mkCL sS iS (done ++ [cur])).setActive (modelSegment done.length sS iS cur') =
      mkCL sS iS (done ++ [cur']) := by
  have hseg : (buildSegs sS iS 0 (done ++ [cur])).set
      ((buildSegs sS iS 0 (done ++ [cur])).length - 1)
      (modelSegment done.length sS iS cur') = buildSegs sS iS 0 (done ++ [cur']) := by
    rw [buildSegs_length]
    have hlen : (done ++ [cur]).length - 1 = done.length := by simp
    rw [hlen, buildSegs_append, buildSegs_append]
    simp only [buildSegs]
    rw [set_append_last_of_eq _ _ _ done.length (buildSegs_length sS iS done 0).symm]
    simp
  simp only [CommitLog.setActive, mkCL]
  rw [hseg]

theorem mkCL_rotate (sS iS : Nat) (done : List (List (List Nat)))
    (cur : List (List Nat)) :
    (mkCL sS iS (done ++ [cur])).rotateSegment =
      mkCL sS iS ((done ++ [cur]) ++ [[]]) := by
  have hseg : buildSegs sS iS 0 (done ++ [cur]) ++
      [Segment.new (buildSegs sS iS 0 (done ++ [cur])).length sS iS] =
      buildSegs sS iS 0 ((done ++ [cur]) ++ [[]]) := by
    rw [buildSegs_append sS iS (done ++ [cur]) [[]] 0, buildSegs_length]
    simp [buildSegs, modelSegment_nil]
  simp only [CommitLog.rotateSegment, mkCL]
  rw [hseg]

theorem model_fit (base sS iS : Nat) (cur : List (List Nat)) (p : List Nat) :
    (modelSegment base sS iS cur).fit p.length = fitsB sS iS cur p := rfl

theorem mkCL_write_fit (sS iS : Nat) (done : List (List (List Nat)))
    (cur : List (List Nat)) (p : List Nat) (hp : p.length ≤ sS)
    (hg : sumLen cur ≤ sS) (hfit : fitsB sS iS cur p = true) :
    (mkCL sS iS (done ++ [cur])).write p =
      (.ok p.length, mkCL sS iS (done ++ [cur ++ [p]])) := by
  have hfit' := hfit
  rw [fitsB, Bool.and_eq_true, decide_eq_true_eq, decide_eq_true_eq] at hfit'
  have h1 : sumLen cur + p.length ≤ sS := by omega
  have h2 : 20 * cur.length + 20 ≤ iS := by omega
  rw [CommitLog.write, if_neg (by show ¬ p.length > sS; omega)]
  have hact : (mkCL sS iS (done ++ [cur])).activeSegment.fit p.length = true := by
    rw [mkCL_active, model_fit]
    exact hfit
  rw [hact]
  simp only [if_true]
  rw [mkCL_active, segment_write_step done.length sS iS cur p h1 h2]
  simp only
  rw [mkCL_setActive]

theorem mkCL_write_rot (sS iS : Nat) (done : List (List (List Nat)))
    (cur : List (List Nat)) (p : List Nat) (hp : p.length ≤ sS) (h20 : 20 ≤ iS)
    (hfit : fitsB sS iS cur p = false) :
    (mkCL sS iS (done ++ [cur])).write p =
      (.ok p.length, mkCL sS iS ((done ++ [cur]) ++ [[p]])) := by
  rw [CommitLog.write, if_neg (by show ¬ p.length > sS; omega)]
  have hact : (mkCL sS iS (done ++ [cur])).activeSegment.fit p.length = false := by
    rw [mkCL_active, model_fit]
    exact hfit
  rw [hact]
  simp only [Bool.false_eq_true, if_false]
  rw [mkCL_rotate]
  have hact2 := mkCL_active sS iS (done ++ [cur]) []
  rw [hact2]
  have hstep := segment_write_step (done ++ [cur]).length sS iS [] p
    (by simpa using hp) (by simpa using h20)
  rw [hstep]
  simp only
  have := mkCL_setActive sS iS (done ++ [cur]) []
    ([] ++ [p])
  simpa using this

theorem fitsB_true_bounds (sS iS : Nat) (cur : List (List Nat)) (p : List Nat)
    (hg : sumLen cur ≤ sS) (hf : fitsB sS iS cur p = true) :
    sumLen (cur ++ [p]) ≤ sS ∧ 20 * (cur ++ [p]).length ≤ iS := by
  rw [fitsB, Bool.and_eq_true, decide_eq_true_eq, decide_eq_true_eq] at hf
  constructor
  · rw [sumLen_append, sumLen_cons, sumLen_nil]
    omega
  · simp only [List.length_append, List.length_cons, List.length_nil]
    omega

theorem writeAllWithAddrs_route (sS iS : Nat) (h20 : 20 ≤ iS) :
    ∀ (ps : List (List Nat)) (done : List (List (List Nat)))
      (cur : List (List Nat)),
      (∀ p ∈ ps, p.length ≤ sS) → sumLen cur ≤ sS → 20 * cur.length ≤ iS →
      (mkCL sS iS (done ++ [cur])).writeAllWithAddrs ps =
        (mkCL sS iS
          (done ++ ((routeAcc sS iS cur ps).1 ++ [(routeAcc sS iS cur ps).2])),
         addrAcc sS iS done.length cur ps) := by
  intro ps
  induction ps with
  | nil =>
    intro done cur hp hg1 hg2
    simp [CommitLog.writeAllWithAddrs, routeAcc, addrAcc]
  | cons p ps ih =>
    intro done cur hp hg1 hg2
    have hpl : p.length ≤ sS := hp p (by simp)
    by_cases hf : fitsB sS iS cur p = true
    · obtain ⟨hb1, hb2⟩ := fitsB_true_bounds sS iS cur p hg1 hf
      have hw := mkCL_write_fit sS iS done cur p hpl hg1 hf
      have hih := ih done (cur ++ [p])
        (fun q hq => hp q (List.mem_cons_of_mem p hq)) hb1 hb2
      have ha1 : (mkCL sS iS (done ++ [cur ++ [p]])).segments.length - 1 =
          done.length := by
        show (buildSegs sS iS 0 (done ++ [cur ++ [p]])).length - 1 = done.length
        rw [buildSegs_length]
        simp
      have ha2 : (mkCL sS iS (done ++ [cur ++ [p]])).activeSegment.index.offset
          / 20 - 1 = cur.length := by
        rw [mkCL_active]
        show 20 * (cur ++ [p]).length / 20 - 1 = cur.length
        rw [Nat.mul_div_cancel_left _ (by omega : (0:Nat) < 20)]
        simp
      simp only [CommitLog.writeAllWithAddrs, hw, hih, ha1, ha2]
      simp only [routeAcc, addrAcc, hf, if_true]
    · have hfx : fitsB sS iS cur p = false := by
        cases hx : fitsB sS iS cur p
        · rfl
        · exact absurd hx hf
      have hw := mkCL_write_rot sS iS done cur p hpl h20 hfx
      have hih := ih (done ++ [cur]) [p]
        (fun q hq => hp q (List.mem_cons_of_mem p hq))
        (by rw [sumLen_cons, sumLen_nil]; omega)
        (by simp; omega)
      have ha1 : (mkCL sS iS ((done ++ [cur]) ++ [[p]])).segments.length - 1 =
          done.length + 1 := by
        show (buildSegs sS iS 0 ((done ++ [cur]) ++ [[p]])).length - 1 = _
        rw [buildSegs_length]
        simp
      have ha2 : (mkCL sS iS ((done ++ [cur]) ++ [[p]])).activeSegment.index.offset
          / 20 - 1 = 0 := by
        rw [mkCL_active]
        show 20 * [p].length / 20 - 1 = 0
        rw [Nat.mul_div_cancel_left _ (by omega : (0:Nat) < 20)]
        simp
      have hdl : (done ++ [cur]).length = done.length + 1 := by simp
      simp only [CommitLog.writeAllWithAddrs, hw, hih, ha1, ha2, hdl]
      simp only [routeAcc, addrAcc, hfx, Bool.false_eq_true, if_false]
      rw [List.append_assoc done [cur]]
      rfl

theorem route_head_ext (sS iS : Nat) :
    ∀ (ps cur : _), ∃ rest,
      ((routeAcc sS iS cur ps).1 ++ [(routeAcc sS iS cur ps).2]).getD 0 []
        = cur ++ rest := by
  intro ps
  induction ps with
  | nil => intro cur; exact ⟨[], by simp [routeAcc]⟩
  | cons p ps ih =>
    intro cur
    by_cases hf : fitsB sS iS cur p = true
    · obtain ⟨r, hr⟩ := ih (cur ++ [p])
      refine ⟨[p] ++ r, ?_⟩
      simp only [routeAcc, hf, if_true]
      rw [hr, List.append_assoc]
    · have hfx : fitsB sS iS cur p = false := by
        cases hx : fitsB sS iS cur p
        · rfl
        · exact absurd hx hf
      refine ⟨[], ?_⟩
      simp [routeAcc, hfx]

theorem route_groups_good (sS iS : Nat) (h20 : 20 ≤ iS) :
    ∀ (ps cur : _), (∀ p ∈ ps, p.length ≤ sS) →
      sumLen cur ≤ sS → 20 * cur.length ≤ iS →
      ∀ grp ∈ (routeAcc sS iS cur ps).1 ++ [(routeAcc sS iS cur ps).2],
        sumLen grp ≤ sS ∧ 20 * grp.length ≤ iS := by
  intro ps
  induction ps with
  | nil =>
    intro cur hp hg1 hg2 grp hgrp
    simp only [routeAcc, List.nil_append, List.mem_singleton] at hgrp
    subst hgrp
    exact ⟨hg1, hg2⟩
  | cons p ps ih =>
    intro cur hp hg1 hg2 grp hgrp
    have hpl : p.length ≤ sS := hp p (by simp)
    by_cases hf : fitsB sS iS cur p = true
    · obtain ⟨hb1, hb2⟩ := fitsB_true_bounds sS iS cur p hg1 hf
      simp only [routeAcc, hf, if_true] at hgrp
      exact ih (cur ++ [p]) (fun q hq => hp q (List.mem_cons_of_mem p hq))
        hb1 hb2 grp hgrp
    · have hfx : fitsB sS iS cur p = false := by
        cases hx : fitsB sS iS cur p
        · rfl
        · exact absurd hx hf
      simp only [routeAcc, hfx, Bool.false_eq_true, if_false, List.cons_append,
        List.mem_cons] at hgrp
      rcases hgrp with rfl | hgrp
      · exact ⟨hg1, hg2⟩
      · exact ih [p] (fun q hq => hp q (List.mem_cons_of_mem p hq))
          (by rw [sumLen_cons, sumLen_nil]; omega) (by simp; omega) grp hgrp

theorem addr_content (sS iS : Nat) :
    ∀ (ps cur : _) (g i : Nat), i < ps.length →
      g ≤ ((addrAcc sS iS g cur ps).getD i (0, 0)).1 ∧
      ((addrAcc sS iS g cur ps).getD i (0, 0)).1 - g <
        ((routeAcc sS iS cur ps).1 ++ [(routeAcc sS iS cur ps).2]).length ∧
      ((addrAcc sS iS g cur ps).getD i (0, 0)).2 <
        (((routeAcc sS iS cur ps).1 ++ [(routeAcc sS iS cur ps).2]).getD
          (((addrAcc sS iS g cur ps).getD i (0, 0)).1 - g) []).length ∧
      ((((routeAcc sS iS cur ps).1 ++ [(routeAcc sS iS cur ps).2]).getD
          (((addrAcc sS iS g cur ps).getD i (0, 0)).1 - g) []).getD
        (((addrAcc sS iS g cur ps).getD i (0, 0)).2) []) = ps.getD i [] := by
  intro ps
  induction ps with
  | nil => intro cur g i hi; simp at hi
  | cons p ps ih =>
    intro cur g i hi
    by_cases hf : fitsB sS iS cur p = true
    · simp only [routeAcc, addrAcc, hf, if_true]
      cases i with
      | zero =>
        obtain ⟨rest, hr⟩ := route_head_ext sS iS ps (cur ++ [p])
        simp only [List.getD_cons_zero]
        refine ⟨le_refl g, ?_, ?_, ?_⟩
        · simp only [Nat.sub_self]
          simp [List.length_append]
        · rw [Nat.sub_self, hr, List.append_assoc]
          simp only [List.length_append, List.length_cons]
          omega
        · rw [Nat.sub_self, hr, List.append_assoc, List.singleton_append,
            getD_append_length]
          simp
      | succ j =>
        simp only [List.getD_cons_succ]
        exact ih (cur ++ [p]) g j (by simpa using hi)
    · have hfx : fitsB sS iS cur p = false := by
        cases hx : fitsB sS iS cur p
        · rfl
        · exact absurd hx hf
      simp only [routeAcc, addrAcc, hfx, Bool.false_eq_true, if_false]
      cases i with
      | zero =>
        obtain ⟨rest, hr⟩ := route_head_ext sS iS ps [p]
        simp only [List.getD_cons_zero, List.cons_append]
        have hsub : g + 1 - g = 1 := by omega
        refine ⟨by omega, ?_, ?_, ?_⟩
        · rw [hsub]
          simp only [List.length_cons, List.length_append]
          omega
        · rw [hsub, List.getD_cons_succ]
          rw [hr]
          simp
        · rw [hsub, List.getD_cons_succ, hr]
          simp
      | succ j =>
        simp only [List.getD_cons_succ, List.cons_append]
        have h := ih [p] (g + 1) j (by simpa using hi)
        obtain ⟨h1, h2, h3, h4⟩ := h
        have hsplit : ((addrAcc sS iS (g + 1) [p] ps).getD j (0, 0)).1 - g =
            (((addrAcc sS iS (g + 1) [p] ps).getD j (0, 0)).1 - (g + 1)) + 1 := by
          omega
        refine ⟨by omega, ?_, ?_, ?_⟩
        · rw [hsplit]
          simp only [List.length_cons]
          omega
        · rw [hsplit, List.getD_cons_succ]
          exact h3
        · rw [hsplit, List.getD_cons_succ]
          exact h4

theorem mkCL_read (sS iS : Nat) (gs : List (List (List Nat))) (g k : Nat)
    (hg : g < gs.length)
    (hgood1 : sumLen (gs.getD g []) ≤ sS)
    (hgood2 : 20 * (gs.getD g []).length ≤ iS)
    (hk : k < (gs.getD g []).length) (hb : (k + 1) * 20 < iS)
    (hd : sS ≤ 9999999999) :
    (mkCL sS iS gs).read_at g k = .ok ((gs.getD g []).getD k []) := by
  have hlen : (mkCL sS iS gs).segments.length = gs.length :=
    buildSegs_length sS iS gs 0
  have hseg : (mkCL sS iS gs).segments.getD g (Segment.new 0 0 0) =
      modelSegment g sS iS (gs.getD g []) := by
    show (buildSegs sS iS 0 gs).getD g (Segment.new 0 0 0) = _
    rw [buildSegs_getD sS iS gs 0 g hg]
    simp
  have hread := model_read_at g sS iS (gs.getD g []) k hk hb hgood1 hgood2 hd
  simp only [CommitLog.read_at]
  rw [if_neg (show ¬ g ≥ (mkCL sS iS gs).segments.length by rw [hlen]; omega)]
  rw [hseg, hread]

theorem writeAll_eq_fst (ps : List (List Nat)) :
    ∀ c : CommitLog, c.writeAll ps = (c.writeAllWithAddrs ps).1 := by
  induction ps with
  | nil => intro c; rfl
  | cons p ps ih =>
    intro c
    simp only [CommitLog.writeAll, CommitLog.writeAllWithAddrs, ih]

theorem write_current_segment (c : CommitLog) (p : List Nat) :
    ((c.write p).2).current_segment = c.current_segment := by
  by_cases h : p.length > c.segment_size
  · simp [CommitLog.write, h]
  · have hc1 : (if c.activeSegment.fit p.length then c
        else c.rotateSegment).current_segment = c.current_segment := by
      split
      · rfl
      · rfl
    simp only [CommitLog.write, if_neg h]
    rcases hw : (if c.activeSegment.fit p.length then c
      else c.rotateSegment).activeSegment.write p with ⟨r, s'⟩
    cases r with
    | ok n => simp [hw, CommitLog.setActive, hc1]
    | error e => simp [hw, CommitLog.setActive, hc1]

theorem writeAll_current_segment (ps : List (List Nat)) :
    ∀ c : CommitLog, (CommitLog.writeAll c ps).current_segment =
      c.current_segment := by
  induction ps with
  | nil => intro c; rfl
  | cons p ps ih =>
    intro c
    show (CommitLog.writeAll (c.write p).2 ps).current_segment = _
    rw [ih, write_current_segment]

/-! ## Claim theorems -/

/-- C4: for every `CommitLog` state and every buffer longer than
`segment_size`, `CommitLog::write` returns `BufferSizeExceeded` and
leaves the whole state (segments list, every cursor) unchanged. -/
theorem c4_reject_oversize (c : CommitLog) (buffer : List Nat)
    (h : buffer.length > c.segment_size) :
    c.write buffer = (.error .bufferSizeExceeded, c) := by
  simp [CommitLog.write, h]

/-- C4 witness: a 21-byte buffer against `segment_size = 10`. -/
theorem c4_reject_oversize_witness :
    (List.replicate 21 3).length > (CommitLog.new 10 100).segment_size ∧
    (CommitLog.new 10 100).write (List.replicate 21 3) =
      (.error .bufferSizeExceeded, CommitLog.new 10 100) :=
  ⟨by decide,
   c4_reject_oversize (CommitLog.new 10 100) (List.replicate 21 3) (by decide)⟩

/-- C5: `Log::fit n` is true iff `max_size − write_cursor ≥ n` (with exact
integer subtraction, given the invariant `cursor ≤ max_size`), and
`Index::fit n` is true iff `max_size − write_cursor ≥ 20·n`; both use `≥`.
Concretely a Log of capacity 100 with cursor 17 accepts 83 and rejects 84,
and an Index of `max_size` 25 with cursor 0 fits exactly one entry. -/
theorem c5_fit_boundary (l : Log) (idx : Index) (n m : Nat)
    (h : l.offset ≤ l.max_size) :
    (l.fit n = true ↔ (n : Int) ≤ (l.max_size : Int) - (l.offset : Int)) ∧
    (idx.fit m = true ↔
      (20 * m : Int) ≤ (idx.max_size : Int) - (idx.offset : Int)) ∧
    ({ base_offset := 0, offset := 17, max_size := 100,
       mmap := List.replicate 100 0 } : Log).fit 83 = true ∧
    ({ base_offset := 0, offset := 17, max_size := 100,
       mmap := List.replicate 100 0 } : Log).fit 84 = false ∧
    ({ base_offset := 0, offset := 0, max_size := 25,
       mmap := List.replicate 25 0 } : Index).fit 1 = true ∧
    ({ base_offset := 0, offset := 0, max_size := 25,
       mmap := List.replicate 25 0 } : Index).fit 2 = false := by
  refine ⟨?_, ?_, by decide, by decide, by decide, by decide⟩
  · rw [Log.fit, decide_eq_true_eq]
    omega
  · rw [Index.fit, decide_eq_true_eq]
    omega

/-- C5 witness: the boundary instance at capacity 100, cursor 17. -/
theorem c5_fit_boundary_witness :
    (({ base_offset := 0, offset := 17, max_size := 100,
        mmap := List.replicate 100 0 } : Log).offset ≤ 100) ∧
    ({ base_offset := 0, offset := 17, max_size := 100,
       mmap := List.replicate 100 0 } : Log).fit 83 = true :=
  ⟨by decide,
   (c5_fit_boundary
     { base_offset := 0, offset := 17, max_size := 100,
       mmap := List.replicate 100 0 }
     { base_offset := 0, offset := 0, max_size := 25,
       mmap := List.replicate 25 0 } 83 1 (by decide)).2.2.1⟩

/-- C7: `Segment::write` writes the index entry
`(log.offset(), len buffer)` first; when that index write fails, the
reported error is the index error and the segment (log cursor, index
cursor, both mappings) is exactly the pre-state. -/
theorem c7_index_failure_atomic (s : Segment) (buffer : List Nat)
    (e : IndexError)
    (h : s.index.write ⟨s.log.offset, buffer.length⟩ = .error e) :
    s.write buffer = (.error (.index e), s) := by
  simp only [Segment.write, h]

/-- C7 witness: an index of `max_size` 10 cannot fit one entry, so the
segment write fails with `NoSpaceLeft` and changes nothing. -/
theorem c7_index_failure_atomic_witness :
    (Segment.new 0 100 10).index.write
      ⟨(Segment.new 0 100 10).log.offset, 3⟩ = .error .noSpaceLeft ∧
    (Segment.new 0 100 10).write [1, 2, 3] =
      (.error (.index .noSpaceLeft), Segment.new 0 100 10) :=
  ⟨by decide,
   c7_index_failure_atomic (Segment.new 0 100 10) [1, 2, 3] .noSpaceLeft
     (by decide)⟩

/-- C9: `current_segment` is 0 at construction and never updated by
`write` (rotation included), and `read(&Position::Horizon)` adds 1; so
after any sequence of writes the returned record addresses
`(segment 0, offset 1)` — the second record of segment 0, not the first
record of the active segment. -/
theorem c9_read_horizon (sS iS : Nat) (ps : List (List Nat)) :
    ((CommitLog.new sS iS).writeAll ps).read .horizon =
      .ok { current_offset := 1, segment_index := 0 } ∧
    ((CommitLog.new sS iS).writeAll ps).current_segment = 0 := by
  have hcs : ((CommitLog.new sS iS).writeAll ps).current_segment = 0 := by
    rw [writeAll_current_segment]
    rfl
  exact ⟨by simp [CommitLog.read, CommitLog.read_after, hcs], hcs⟩

/-- C10: when the index has room, `Index::write` always succeeds, stores
exactly the first 20 bytes of the rendered entry at the cursor and
advances the cursor by 20; the rendering is exactly 20 bytes iff both
fields are ≤ 9 999 999 999, and exceeds 20 bytes otherwise (so oversized
entries are silently truncated). -/
theorem c10_index_write_overlong (idx : Index) (e : Entry)
    (h : idx.fit 1 = true) :
    idx.write e = .ok (20,
      { idx with
          offset := idx.offset + 20,
          mmap := idx.mmap.take idx.offset ++ (Entry.render e).take 20 ++
            idx.mmap.drop (idx.offset + 20) }) ∧
    ((Entry.render e).length = 20 ↔
      e.offset < 10 ^ 10 ∧ e.size < 10 ^ 10) ∧
    (¬ (e.offset < 10 ^ 10 ∧ e.size < 10 ^ 10) →
      20 < (Entry.render e).length) := by
  have hge := render_length_ge e
  refine ⟨?_, render_length_iff e, ?_⟩
  · rw [Index.write, if_pos h]
    have hmin : min (Entry.render e).length 20 = 20 := by omega
    have htl : ((Entry.render e).take 20).length = 20 := by
      rw [List.length_take]
      omega
    rw [hmin, writeBytes, htl]
  · intro hc
    have hne : (Entry.render e).length ≠ 20 := by
      intro hlen
      exact hc ((render_length_iff e).mp hlen)
    omega

/-- C10 witness: the entry `(10^10, 5)` renders to 21 bytes yet is
accepted by a fresh index of `max_size` 100. -/
theorem c10_index_write_overlong_witness :
    (Index.new 0 100).fit 1 = true ∧
    ((Entry.render ⟨10000000000, 5⟩).length = 20 ↔
      (10000000000 : Nat) < 10 ^ 10 ∧ (5 : Nat) < 10 ^ 10) :=
  ⟨by decide,
   (c10_index_write_overlong (Index.new 0 100) ⟨10000000000, 5⟩ (by decide)).2.1⟩

/-- C2 counterexample: a 20-byte index holding one written entry has
`(0+1)·20 ≤ len(mapping)`, yet `read_at 0` fails with `InvalidIndex`
(the claim says it must succeed and that `InvalidIndex` occurs exactly
when `(k+1)·20 > len`). -/
theorem c2_counterexample :
    (((Index.new 0 20).write ⟨0, 5⟩).toOption.map
      (fun x => (decide ((0 + 1) * 20 ≤ x.2.mmap.length), x.2.read_at 0))) =
      some (true, .error .invalidIndex) := by decide

/-- C2 (amended): `Index::read_at k` fails with `InvalidIndex` iff
`(k+1)·20 ≥ len(mapping)` (the source uses `>=`, so the boundary case
`(k+1)·20 = len` is rejected); when `(k+1)·20 < len` it parses the
20-byte slot (yielding the entry, or `ParseError` on non-digit bytes). -/
theorem c2_read_at_bound_amended (idx : Index) (k : Nat) :
    (idx.read_at k = .error .invalidIndex ↔
      idx.mmap.length ≤ (k + 1) * 20) ∧
    ((k + 1) * 20 < idx.mmap.length →
      idx.read_at k = parseEntry (idx.slotBytes k)) := by
  constructor
  · constructor
    · intro h
      by_contra hc
      push_neg at hc
      rw [Index.read_at, if_neg (by omega)] at h
      unfold parseEntry at h
      split at h
      · simp at h
      · simp at h
    · intro h
      rw [Index.read_at, if_pos (by omega)]
  · intro h
    rw [Index.read_at, if_neg (by omega)]

/-- C2 witness: the amended bound rule at a fresh 50-byte index, slot 0. -/
theorem c2_read_at_bound_witness :
    ((Index.new 0 50).read_at 0 = .error .invalidIndex ↔
      (Index.new 0 50).mmap.length ≤ (0 + 1) * 20) ∧
    ((0 + 1) * 20 < (Index.new 0 50).mmap.length →
      (Index.new 0 50).read_at 0 = parseEntry ((Index.new 0 50).slotBytes 0)) :=
  c2_read_at_bound_amended (Index.new 0 50) 0

/-- C6: in every segment state reached from a fresh segment by successful
`Segment::write` calls (with `segment_size` inside the 10-digit
representable range the on-disk format fixes), the `k`-th stored index
entry parses to offset `Σ_{j<k} |recs_j|` and size `|recs_k|`, and that
offset plus the size is at most the log's write cursor. -/
theorem c6_offset_invariant (base sS iS : Nat) (recs : List (List Nat))
    (s : Segment) (hd : sS ≤ 9999999999)
    (h : Segment.writeAllE (Segment.new base sS iS) recs = some s)
    (k : Nat) (hk : k < recs.length) :
    parseEntry (s.index.slotBytes k) =
      .ok ⟨sumLen (recs.take k), (recs.getD k []).length⟩ ∧
    sumLen (recs.take k) + (recs.getD k []).length ≤ s.log.offset := by
  rw [← modelSegment_nil] at h
  obtain ⟨h1, h2, hs⟩ :=
    writeAllE_model base sS iS recs [] s (by simp) (by simp) h
  rw [List.nil_append] at h1 h2 hs
  subst hs
  refine ⟨model_parse_slot base sS iS recs k hk h1 hd, ?_⟩
  show sumLen (recs.take k) + (recs.getD k []).length ≤ sumLen recs
  have := sumLen_take_succ recs k hk
  have := sumLen_take_le recs (k + 1)
  omega

/-- C6 witness: two records of sizes 2 and 1 in a 50/100 segment; the
second entry parses to `(2, 1)` and `2 + 1 ≤ cursor`. -/
theorem c6_offset_invariant_witness :
    parseEntry (((Segment.writeAllE (Segment.new 0 50 100)
        [[1, 2], [3]]).getD (Segment.new 0 0 0)).index.slotBytes 1) =
      .ok ⟨2, 1⟩ ∧
    2 + 1 ≤ ((Segment.writeAllE (Segment.new 0 50 100)
        [[1, 2], [3]]).getD (Segment.new 0 0 0)).log.offset :=
  c6_offset_invariant 0 50 100 [[1, 2], [3]]
    ((Segment.writeAllE (Segment.new 0 50 100) [[1, 2], [3]]).getD
      (Segment.new 0 0 0))
    (by decide) rfl 1 (by decide)

/-- C1 counterexample: with `segment_size = 100` and `index_size = 20`,
the single one-byte payload `[7]` (well within `segment_size`) resolves
to address `(0, 0)`, yet reading it back fails with `InvalidIndex`
instead of returning the payload. -/
theorem c1_counterexample :
    ((CommitLog.new 100 20).writeAllWithAddrs [[7]]).2 = [(0, 0)] ∧
    ((CommitLog.new 100 20).writeAllWithAddrs [[7]]).1.read_at 0 0 =
      .error (.segment (.index .invalidIndex)) := by decide

/-- C1 (amended): from a fresh commit log with `index_size ≥ 20` and
`segment_size` within the 10-digit representable range, after writing any
in-range payload sequence, every payload whose resolved record slot
satisfies `(record_index + 1)·20 < index_size` reads back byte for byte;
the slot whose end coincides with the index mapping length is excluded
(it is unreadable, see the counterexample). -/
theorem c1_round_trip_amended (sS iS : Nat) (ps : List (List Nat))
    (h20 : 20 ≤ iS) (hd : sS ≤ 9999999999)
    (hp : ∀ p ∈ ps, p.length ≤ sS) (i : Nat) (hi : i < ps.length)
    (hb : ((((CommitLog.new sS iS).writeAllWithAddrs ps).2.getD i (0, 0)).2 + 1)
      * 20 < iS) :
    ((CommitLog.new sS iS).writeAllWithAddrs ps).1.read_at
      ((((CommitLog.new sS iS).writeAllWithAddrs ps).2.getD i (0, 0)).1)
      ((((CommitLog.new sS iS).writeAllWithAddrs ps).2.getD i (0, 0)).2) =
      .ok (ps.getD i []) := by
  have hmain := writeAllWithAddrs_route sS iS h20 ps [] [] hp (by simp) (by simp)
  simp only [List.nil_append, List.length_nil] at hmain
  rw [mkCL_new] at hb ⊢
  rw [hmain] at hb ⊢
  obtain ⟨hga, hlt, hk2, hcontent⟩ := addr_content sS iS ps [] 0 i hi
  simp only [Nat.sub_zero] at hlt hk2 hcontent
  have hgood := route_groups_good sS iS h20 ps [] hp (by simp) (by simp)
    (((routeAcc sS iS [] ps).1 ++ [(routeAcc sS iS [] ps).2]).getD
      (((addrAcc sS iS 0 [] ps).getD i (0, 0)).1) [])
    (getD_mem _ _ [] hlt)
  rw [mkCL_read sS iS ((routeAcc sS iS [] ps).1 ++ [(routeAcc sS iS [] ps).2])
    (((addrAcc sS iS 0 [] ps).getD i (0, 0)).1)
    (((addrAcc sS iS 0 [] ps).getD i (0, 0)).2)
    hlt hgood.1 hgood.2 hk2 hb hd]
  rw [hcontent]

/-- C1 witness: two payloads in a 50/100 log; payload 0 resolves to
`(0, 0)` and reads back. -/
theorem c1_round_trip_witness :
    ((((CommitLog.new 50 100).writeAllWithAddrs
        [[1, 2, 3], [4]]).2.getD 0 (0, 0)).2 + 1) * 20 < 100 ∧
    ((CommitLog.new 50 100).writeAllWithAddrs [[1, 2, 3], [4]]).1.read_at
      ((((CommitLog.new 50 100).writeAllWithAddrs
        [[1, 2, 3], [4]]).2.getD 0 (0, 0)).1)
      ((((CommitLog.new 50 100).writeAllWithAddrs
        [[1, 2, 3], [4]]).2.getD 0 (0, 0)).2) =
      .ok ([[1, 2, 3], [4]].getD 0 []) :=
  ⟨by decide,
   c1_round_trip_amended 50 100 [[1, 2, 3], [4]] (by decide) (by decide)
     (by decide) 0 (by decide) (by decide)⟩

/-- C3 counterexample: with `segment_size = 100`, `index_size = 20`, one
record already written, the payload `[2]` does not fit the active
segment; the write succeeds and rotates (two segments), but the payload
is not readable at `(segments.len()-1, 0)` — the read fails with
`InvalidIndex`. -/
theorem c3_counterexample :
    ((CommitLog.new 100 20).writeAll [[1]]).activeSegment.fit 1 = false ∧
    ((((CommitLog.new 100 20).writeAll [[1]]).write [2]).1 = .ok 1) ∧
    ((((CommitLog.new 100 20).writeAll [[1]]).write [2]).2.segments.length = 2) ∧
    (((CommitLog.new 100 20).writeAll [[1]]).write [2]).2.read_at 1 0 =
      .error (.segment (.index .invalidIndex)) := by decide

/-- C3 (amended): in a commit log reached by in-range writes
(`index_size ≥ 20`, `segment_size` in the 10-digit range), if a payload
with `|p| ≤ segment_size` does not fit the active segment, then the
write succeeds returning `|p|`, the number of segments grows by exactly
one, and — provided `index_size ≥ 40`, so that slot 0 of the fresh index
is readable — `p` reads back at `(segments.len()-1, 0)`. -/
theorem c3_rotation_boundary_amended (sS iS : Nat) (ps : List (List Nat))
    (p : List Nat) (h20 : 20 ≤ iS) (hd : sS ≤ 9999999999)
    (hp : ∀ q ∈ ps, q.length ≤ sS) (hpl : p.length ≤ sS)
    (hnofit : ((CommitLog.new sS iS).writeAll ps).activeSegment.fit p.length
      = false) :
    ((((CommitLog.new sS iS).writeAll ps).write p).1 = .ok p.length) ∧
    ((((CommitLog.new sS iS).writeAll ps).write p).2.segments.length =
      ((CommitLog.new sS iS).writeAll ps).segments.length + 1) ∧
    (40 ≤ iS →
      (((CommitLog.new sS iS).writeAll ps).write p).2.read_at
        ((((CommitLog.new sS iS).writeAll ps).write p).2.segments.length - 1) 0
        = .ok p) := by
  have hmain := writeAllWithAddrs_route sS iS h20 ps [] [] hp (by simp) (by simp)
  simp only [List.nil_append, List.length_nil] at hmain
  have hwa : (CommitLog.new sS iS).writeAll ps =
      mkCL sS iS ((routeAcc sS iS [] ps).1 ++ [(routeAcc sS iS [] ps).2]) := by
    rw [writeAll_eq_fst, mkCL_new, hmain]
  rw [hwa] at hnofit ⊢
  rw [mkCL_active, model_fit] at hnofit
  have hw := mkCL_write_rot sS iS (routeAcc sS iS [] ps).1
    (routeAcc sS iS [] ps).2 p hpl h20 hnofit
  rw [hw]
  have hlen1 : (mkCL sS iS (((routeAcc sS iS [] ps).1 ++
      [(routeAcc sS iS [] ps).2]) ++ [[p]])).segments.length =
      (routeAcc sS iS [] ps).1.length + 2 := by
    show (buildSegs sS iS 0 _).length = _
    rw [buildSegs_length]
    simp
  have hlen0 : (mkCL sS iS ((routeAcc sS iS [] ps).1 ++
      [(routeAcc sS iS [] ps).2])).segments.length =
      (routeAcc sS iS [] ps).1.length + 1 := by
    show (buildSegs sS iS 0 _).length = _
    rw [buildSegs_length]
    simp
  refine ⟨rfl, by rw [hlen1, hlen0], ?_⟩
  intro h40
  rw [hlen1]
  have hsub : (routeAcc sS iS [] ps).1.length + 2 - 1 =
      (routeAcc sS iS [] ps).1.length + 1 := rfl
  rw [hsub]
  have hgd : (((routeAcc sS iS [] ps).1 ++ [(routeAcc sS iS [] ps).2]) ++
      [[p]]).getD ((routeAcc sS iS [] ps).1.length + 1) [] = [p] := by
    have hl : (routeAcc sS iS [] ps).1.length + 1 =
        ((routeAcc sS iS [] ps).1 ++ [(routeAcc sS iS [] ps).2]).length := by
      simp
    rw [hl, getD_append_length]
    simp
  have hread := mkCL_read sS iS (((routeAcc sS iS [] ps).1 ++
      [(routeAcc sS iS [] ps).2]) ++ [[p]])
    ((routeAcc sS iS [] ps).1.length + 1) 0
    (by simp) (by rw [hgd]; simp; omega) (by rw [hgd]; simp; omega)
    (by rw [hgd]; simp) (by omega) hd
  rw [hgd] at hread
  rw [hread]
  simp

/-- C3 witness: a 10/100 log whose active segment holds 8 bytes rejects a
3-byte payload; the write rotates and the payload reads back at `(1, 0)`. -/
theorem c3_rotation_boundary_witness :
    ((CommitLog.new 10 100).writeAll
      [[1, 1, 1, 1, 1, 1, 1, 1]]).activeSegment.fit 3 = false ∧
    ((((CommitLog.new 10 100).writeAll [[1, 1, 1, 1, 1, 1, 1, 1]]).write
      [9, 9, 9]).1 = .ok 3) ∧
    (((CommitLog.new 10 100).writeAll [[1, 1, 1, 1, 1, 1, 1, 1]]).write
      [9, 9, 9]).2.read_at
      ((((CommitLog.new 10 100).writeAll [[1, 1, 1, 1, 1, 1, 1, 1]]).write
        [9, 9, 9]).2.segments.length - 1) 0 = .ok [9, 9, 9] :=
  ⟨by decide,
   (c3_rotation_boundary_amended 10 100 [[1, 1, 1, 1, 1, 1, 1, 1]] [9, 9, 9]
     (by decide) (by decide) (by decide) (by decide) (by decide)).1,
   (c3_rotation_boundary_amended 10 100 [[1, 1, 1, 1, 1, 1, 1, 1]] [9, 9, 9]
     (by decide) (by decide) (by decide) (by decide) (by decide)).2.2
     (by decide)⟩

/-- C8 counterexample: on a fresh commit log with `index_size = 20`, the
empty write succeeds (returning 0) at address `(0, 0)`, but the
subsequent read of that record fails with `InvalidIndex` instead of
returning a zero-length view. -/
theorem c8_counterexample :
    (((CommitLog.new 100 20).write []).1 = .ok 0) ∧
    ((CommitLog.new 100 20).write []).2.read_at 0 0 =
      .error (.segment (.index .invalidIndex)) := by decide

/-- C8 (amended): in a commit log reached by in-range writes, writing a
zero-length buffer succeeds returning 0; the slot just filled in the
active segment's index parses to `(log cursor, 0)`; and — provided the
filled slot `k` satisfies `(k+1)·20 < index_size` — reading the record
back yields the zero-length view. -/
theorem c8_empty_write_amended (sS iS : Nat) (ps : List (List Nat))
    (h20 : 20 ≤ iS) (hd : sS ≤ 9999999999) (hp : ∀ q ∈ ps, q.length ≤ sS)
    (c c' : CommitLog) (r : Except CommitLogError Nat) (g k : Nat)
    (hc : c = (CommitLog.new sS iS).writeAll ps)
    (hw : (r, c') = c.write [])
    (hg : g = c'.segments.length - 1)
    (hk : k = c'.activeSegment.index.offset / 20 - 1) :
    r = .ok 0 ∧
    parseEntry (c'.activeSegment.index.slotBytes k) =
      .ok ⟨c'.activeSegment.log.offset, 0⟩ ∧
    ((k + 1) * 20 < iS → c'.read_at g k = .ok []) := by
  have hmain := writeAllWithAddrs_route sS iS h20 ps [] [] hp (by simp) (by simp)
  simp only [List.nil_append, List.length_nil] at hmain
  have hwa : (CommitLog.new sS iS).writeAll ps =
      mkCL sS iS ((routeAcc sS iS [] ps).1 ++ [(routeAcc sS iS [] ps).2]) := by
    rw [writeAll_eq_fst, mkCL_new, hmain]
  subst hc
  rw [hwa] at hw
  set cls := (routeAcc sS iS [] ps).1 with hcls
  set fc := (routeAcc sS iS [] ps).2 with hfc
  have hgoodfc := route_groups_good sS iS h20 ps [] hp (by simp) (by simp) fc
    (by rw [hfc]; exact List.mem_append_right _ (by simp))
  by_cases hfit : fitsB sS iS fc [] = true
  · have hwr := mkCL_write_fit sS iS cls fc [] (by simp) hgoodfc.1 hfit
    rw [hwr, Prod.mk.injEq] at hw
    obtain ⟨hr, hc'⟩ := hw
    subst hr
    subst hc'
    have hact := mkCL_active sS iS cls (fc ++ [[]])
    have hkval : k = fc.length := by
      rw [hk, hact]
      show (20 * (fc ++ [[]]).length) / 20 - 1 = _
      rw [Nat.mul_div_cancel_left _ (by omega : (0:Nat) < 20)]
      simp
    have hgval : g = cls.length := by
      rw [hg]
      show (buildSegs sS iS 0 _).length - 1 = _
      rw [buildSegs_length]
      simp
    have hb1 : sumLen (fc ++ [[]]) ≤ sS := by
      rw [sumLen_append, sumLen_cons, sumLen_nil]
      have := hgoodfc.1
      simp only [List.length_nil]
      omega
    have hb2 : 20 * (fc ++ [[]]).length ≤ iS := by
      rw [fitsB, Bool.and_eq_true, decide_eq_true_eq, decide_eq_true_eq] at hfit
      simp only [List.length_append, List.length_cons, List.length_nil]
      omega
    refine ⟨rfl, ?_, ?_⟩
    · rw [hkval, hact]
      have hps := model_parse_slot cls.length sS iS (fc ++ [[]]) fc.length
        (by simp) hb1 hd
      rw [hps]
      have ht1 : (fc ++ [[]]).take fc.length = fc := List.take_left fc [[]]
      have ht2 : (fc ++ [[]]).getD fc.length [] = [] := by
        rw [getD_append_length]
        simp
      rw [ht1, ht2]
      show _ = Except.ok (⟨sumLen (fc ++ [[]]), 0⟩ : Entry)
      rw [sumLen_append]
      simp [sumLen]
    · intro hbnd
      rw [hgval, hkval]
      have hgd : (cls ++ [fc ++ [[]]]).getD cls.length [] = fc ++ [[]] := by
        rw [getD_append_length]
        simp
      have hread := mkCL_read sS iS (cls ++ [fc ++ [[]]]) cls.length fc.length
        (by simp) (by rw [hgd]; exact hb1) (by rw [hgd]; exact hb2)
        (by rw [hgd]; simp) (by rw [← hkval]; exact hbnd) hd
      rw [hgd] at hread
      rw [hread, getD_append_length]
      simp
  · have hfx : fitsB sS iS fc [] = false := by
      cases hx : fitsB sS iS fc []
      · rfl
      · exact absurd hx hfit
    have hwr := mkCL_write_rot sS iS cls fc [] (by simp) h20 hfx
    rw [hwr, Prod.mk.injEq] at hw
    obtain ⟨hr, hc'⟩ := hw
    subst hr
    subst hc'
    have hact := mkCL_active sS iS (cls ++ [fc]) [[]]
    have hkval : k = 0 := by
      rw [hk, hact]
      show (20 * [[]].length) / 20 - 1 = _
      rw [Nat.mul_div_cancel_left _ (by omega : (0:Nat) < 20)]
      simp
    have hgval : g = cls.length + 1 := by
      rw [hg]
      show (buildSegs sS iS 0 _).length - 1 = _
      rw [buildSegs_length]
      simp
    refine ⟨rfl, ?_, ?_⟩
    · rw [hkval, hact]
      have hps := model_parse_slot (cls ++ [fc]).length sS iS [[]] 0
        (by simp) (by simp) hd
      rw [hps]
      rfl
    · intro hbnd
      rw [hgval, hkval]
      have hgd : ((cls ++ [fc]) ++ [[[]]]).getD (cls.length + 1) [] = [[]] := by
        have hl : cls.length + 1 = (cls ++ [fc]).length := by simp
        rw [hl, getD_append_length]
        simp
      have hread := mkCL_read sS iS ((cls ++ [fc]) ++ [[[]]]) (cls.length + 1) 0
        (by simp) (by rw [hgd]; simp [sumLen]) (by rw [hgd]; simp; omega)
        (by rw [hgd]; simp) (by rw [← hkval]; exact hbnd) hd
      rw [hgd] at hread
      rw [hread]
      simp

/-- C8 witness: a 10/100 log holding one 2-byte record accepts the empty
write; the filled slot is `(1)` and reads back as the empty view. -/
theorem c8_empty_write_witness :
    ((((CommitLog.new 10 100).writeAll [[1, 2]]).write []).1 = .ok 0) ∧
    (((CommitLog.new 10 100).writeAll [[1, 2]]).write []).2.read_at
      ((((CommitLog.new 10 100).writeAll [[1, 2]]).write []).2.segments.length
        - 1)
      ((((CommitLog.new 10 100).writeAll
        [[1, 2]]).write []).2.activeSegment.index.offset / 20 - 1) = .ok [] :=
  ⟨(c8_empty_write_amended 10 100 [[1, 2]] (by decide) (by decide) (by decide)
      _ _ _ _ _ rfl rfl rfl rfl).1,
   (c8_empty_write_amended 10 100 [[1, 2]] (by decide) (by decide) (by decide)
      _ _ _ _ _ rfl rfl rfl rfl).2.2 (by decide)⟩

/-! ## Concrete validations (spec scenarios S1, S2, S4 and boundary checks) -/

example : pad10 4 = [48,48,48,48,48,48,48,48,48,52] := by decide

example : Entry.render ⟨1521230, 91028317⟩ =
    [48,48,48,49,53,50,49,50,51,48,48,48,57,49,48,50,56,51,49,55] := by decide

example : parse10 [48,48,48,48,48,48,48,48,49,48] = some 10 := by decide

example : ((Index.new 0 25).write ⟨0, 10⟩).toOption.isSome = true := by decide

example : (Index.new 0 50).read_at 0 = .error .num := by decide

example :
    (((Index.new 0 50).write ⟨0, 10⟩).toOption.map (fun x => x.2.read_at 0)) =
      some (.ok ⟨0, 10⟩) := by decide

-- Spec scenario S1: one 28-byte record round-trips at (0,0).
example :
    ((CommitLog.new 100 1000).write (List.replicate 28 7)).1 = .ok 28 := by decide

example :
    (((CommitLog.new 100 1000).write (List.replicate 28 7)).2.read_at 0 0) =
      .ok (List.replicate 28 7) := by decide

-- Spec scenario S2: 81-byte then 24-byte payload rotates; (1,0) readable.
example :
    ((CommitLog.new 100 1000).writeAll [List.replicate 81 1, List.replicate 24 2]
      ).segments.length = 2 := by decide

example :
    ((CommitLog.new 100 1000).writeAll [List.replicate 81 1, List.replicate 24 2]
      ).read_at 1 0 = .ok (List.replicate 24 2) := by decide

-- Spec scenario S4: oversize write rejected, state unchanged.
example :
    ((CommitLog.new 10 100).write (List.replicate 21 3)) =
      (.error .bufferSizeExceeded, CommitLog.new 10 100) := by decide

-- The boundary defect: with index_size = 20 the single record that fits
-- the index is unreadable, because `Index::read_at` rejects the slot
-- whose end coincides with the mapping length.
example :
    ((CommitLog.new 100 20).writeAllWithAddrs [[7]]).2 = [(0, 0)] := by decide

example :
    ((CommitLog.new 100 20).writeAllWithAddrs [[7]]).1.read_at 0 0 =
      .error (.segment (.index .invalidIndex)) := by decide

-- Index-level form of the same defect.
example :
    (((Index.new 0 20).write ⟨0, 5⟩).toOption.map (fun x => x.2.read_at 0)) =
      some (.error .invalidIndex) := by decide


end Voik
